import Mathlib

/-!
Verification of the datanymizer PostgreSQL dumper against its specification.

The definitions below are a shallow embedding of the Rust sources:
  - datanymizer_dumper/src/postgres/dumper.rs (PgDumper)
  - datanymizer_engine/src/locale/mod.rs (LocaleConfig, LocalizedFaker)
  - cli/pg_datanymizer/src/options.rs (Options::database_url)
Pure Rust functions become Lean functions; effectful code (subprocess
execution, writing to the dump sink, reading rows inside the transaction)
is embedded as explicit event traces / state passing.  Components whose
source is not part of the dumper crate (the DumpWriter, the url crate,
the trait-level dump driver) are modelled from the specification and are
marked as such in their doc comments.
-/

namespace Datanymizer

/-! ## Filter and table_args (dumper.rs, PgDumper::table_args) -/

/-- Mirrors datanymizer_engine TableList: an explicit Only list or an
explicit Except list of table names. -/
inductive TableList where
  | Only (tables : List String)
  | Except (tables : List String)
deriving DecidableEq

/-- Mirrors TableList::tables(): the underlying name list. -/
def TableList.tables : TableList → List String
  | .Only ts => ts
  | .Except ts => ts

/-- Mirrors datanymizer_engine Filter: independent schema and data lists. -/
structure Filter where
  schema : Option TableList
  data : Option TableList
deriving DecidableEq

/-- Mirrors PgDumper::table_args (dumper.rs lines 95-112): flag/name pairs
for pg_dump derived from the schema part of the filter only. -/
def table_args : Option Filter → List String
  | some f =>
    match f.schema with
    | some list =>
      let flag : String :=
        match list with
        | .Only _ => "-t"
        | .Except _ => "-T"
      list.tables.flatMap (fun table => [flag, table])
    | none => []
  | none => []

/-! ## Table ordering in the Data stage (dumper.rs, PgDumper::data)

The code runs `tables.sort_by(|a, b| b.1.cmp(&a.1))` on the
(table, weight) list returned by the schema inspector.  Rust's
`sort_by` is a stable sort with respect to the comparator; any stable
sort realizes the same function, so we embed it as the standard stable
insertion sort driven by the same comparator. -/

/-- The comparator passed to sort_by in PgDumper::data (line 197):
compares the weights in reversed argument order. -/
def tableCmp (a b : String × Int) : Ordering := compare b.2 a.2

/-- a may stay in front of b under the comparator (comparator result is
not Greater). -/
def sortLe (a b : String × Int) : Bool := decide (¬ tableCmp a b = Ordering.gt)

/-- Stable insertion of one element: x is placed in front of the first
element it need not follow. -/
def insertByWeight (x : String × Int) :
    List (String × Int) → List (String × Int)
  | [] => [x]
  | y :: ys => if sortLe x y then x :: y :: ys else y :: insertByWeight x ys

/-- The table order produced by PgDumper::data before iterating: the
inspector list sorted (stably) by the comparator, i.e. by descending
weight. -/
def sortTables (ts : List (String × Int)) : List (String × Int) :=
  ts.foldr insertByWeight []

/-- The pairwise order established by the sort: a is allowed before b
when b's weight is at most a's weight (descending weights). -/
def weightGe (a b : String × Int) : Prop := b.2 ≤ a.2

theorem sortLe_eq_true_iff (a b : String × Int) :
    sortLe a b = true ↔ b.2 ≤ a.2 := by
  simp [sortLe, tableCmp, compare_gt_iff_gt, not_lt]

theorem sortLe_eq_false_iff (a b : String × Int) :
    sortLe a b = false ↔ a.2 < b.2 := by
  simp [sortLe, tableCmp, compare_gt_iff_gt]

theorem mem_insertByWeight (z x : String × Int) (l : List (String × Int)) :
    z ∈ insertByWeight x l ↔ z = x ∨ z ∈ l := by
  induction l with
  | nil => simp [insertByWeight]
  | cons y ys ih =>
    by_cases h : sortLe x y
    · simp [insertByWeight, h, or_comm, or_assoc, or_left_comm]
    · simp only [insertByWeight, h, Bool.false_eq_true, if_false,
        List.mem_cons, ih]
      tauto

theorem insertByWeight_perm (x : String × Int) (l : List (String × Int)) :
    List.Perm (insertByWeight x l) (x :: l) := by
  induction l with
  | nil => rfl
  | cons y ys ih =>
    cases h : sortLe x y with
    | true => simp [insertByWeight, h]
    | false =>
      simp only [insertByWeight, h, Bool.false_eq_true, if_false]
      exact (ih.cons y).trans (List.Perm.swap x y ys)

theorem sortTables_perm (ts : List (String × Int)) :
    List.Perm (sortTables ts) ts := by
  induction ts with
  | nil => rfl
  | cons t ts ih =>
    exact (insertByWeight_perm t (sortTables ts)).trans (ih.cons t)

theorem insertByWeight_pairwise (x : String × Int)
    (l : List (String × Int)) (h : l.Pairwise weightGe) :
    (insertByWeight x l).Pairwise weightGe := by
  induction l with
  | nil => simp [insertByWeight, List.Pairwise]
  | cons y ys ih =>
    rcases List.pairwise_cons.mp h with ⟨hy, hys⟩
    cases hle : sortLe x y with
    | true =>
      have hxy : weightGe x y := (sortLe_eq_true_iff x y).mp hle
      simp only [insertByWeight, hle, if_true]
      refine List.pairwise_cons.mpr ⟨?_, h⟩
      intro z hz
      rcases List.mem_cons.mp hz with rfl | hz
      · exact hxy
      · exact le_trans (hy z hz) hxy
    | false =>
      have hlt : x.2 < y.2 := (sortLe_eq_false_iff x y).mp hle
      simp only [insertByWeight, hle, Bool.false_eq_true, if_false]
      refine List.pairwise_cons.mpr ⟨?_, ih hys⟩
      intro z hz
      rcases (mem_insertByWeight z x ys).mp hz with rfl | hz
      · exact le_of_lt hlt
      · exact hy z hz

theorem sortTables_sorted (ts : List (String × Int)) :
    (sortTables ts).Pairwise weightGe := by
  induction ts with
  | nil => simp [sortTables, List.Pairwise]
  | cons t ts ih => exact insertByWeight_pairwise t (sortTables ts) ih

theorem filter_insertByWeight (x : String × Int) (w : Int)
    (l : List (String × Int)) :
    (insertByWeight x l).filter (fun p => p.2 == w) =
      if x.2 == w then x :: l.filter (fun p => p.2 == w)
      else l.filter (fun p => p.2 == w) := by
  induction l with
  | nil =>
    by_cases h : x.2 == w <;> simp [insertByWeight, List.filter, h]
  | cons y ys ih =>
    cases hle : sortLe x y with
    | true =>
      by_cases h : x.2 == w <;> simp [insertByWeight, hle, List.filter, h]
    | false =>
      have hlt : x.2 < y.2 := (sortLe_eq_false_iff x y).mp hle
      by_cases h : x.2 == w
      · have hyw : (y.2 == w) = false := by
          have : x.2 = w := by simpa using h
          simp only [beq_eq_false_iff_ne, ne_eq]
          intro hy
          omega
        simp only [insertByWeight, hle, Bool.false_eq_true, if_false,
          List.filter, hyw, ih, h, if_true]
      · simp [insertByWeight, hle, List.filter, ih, h]

/-- Stability of the Data-stage sort: for every weight the elements
carrying that weight appear in the sorted list in exactly their
discovery order. -/
theorem sortTables_stable (ts : List (String × Int)) (w : Int) :
    (sortTables ts).filter (fun p => p.2 == w) =
      ts.filter (fun p => p.2 == w) := by
  induction ts with
  | nil => rfl
  | cons t ts ih =>
    rw [show sortTables (t :: ts) = insertByWeight t (sortTables ts) from rfl,
      filter_insertByWeight, List.filter_cons]
    by_cases h : t.2 == w
    · simp [h, ih]
    · simp [h, ih]

/-- C1: for every (table, weight) list coming from the schema inspector,
the Data stage visits a permutation of it that is sorted by weight in one
fixed direction (every later table has weight at most every earlier one),
and the sort is stable: for each weight value, the tables carrying it
keep their relative discovery order. -/
theorem data_stage_order_sorted_and_stable (ts : List (String × Int)) :
    List.Perm (sortTables ts) ts ∧
    (sortTables ts).Pairwise weightGe ∧
    ∀ w : Int, (sortTables ts).filter (fun p => p.2 == w) =
      ts.filter (fun p => p.2 == w) :=
  ⟨sortTables_perm ts, sortTables_sorted ts, fun w => sortTables_stable ts w⟩

/-- C2 counterexample: with inspector output weights 1 and 2, the Data
stage puts the weight-2 table first, so the table with the lower weight
is not processed first. -/
theorem data_stage_lower_weight_first_cex :
    ¬ List.Pairwise (fun a b : String × Int => a.2 ≤ b.2)
      (sortTables [("users", (1 : Int)), ("posts", (2 : Int))]) := by
  intro h
  rw [show sortTables [("users", (1 : Int)), ("posts", (2 : Int))] =
      [(("posts" : String), (2 : Int)), ("users", 1)] from rfl] at h
  rcases List.pairwise_cons.mp h with ⟨h1, _⟩
  have h2 := h1 ("users", 1) (List.mem_cons_self _ _)
  exact absurd h2 (by decide)

/-- C2 (amended): the Data stage processes tables in non-increasing
weight order, so for every pair of tables the one with the higher weight
is processed first; a table whose weight is lower than its dependents is
dumped after them. -/
theorem data_stage_higher_weight_first (ts : List (String × Int)) :
    (sortTables ts).Pairwise (fun a b => b.2 ≤ a.2) :=
  sortTables_sorted ts

/-- C4: table_args is empty when the filter is absent or has no schema
list (whatever the data list is); a schema Only list yields one -t/name
pair per table, a schema Except list one -T/name pair per table, in list
order. -/
theorem table_args_cases :
    table_args none = [] ∧
    (∀ d, table_args (some ⟨none, d⟩) = []) ∧
    (∀ ts d, table_args (some ⟨some (TableList.Only ts), d⟩) =
      ts.flatMap (fun t => ["-t", t])) ∧
    (∀ ts d, table_args (some ⟨some (TableList.Except ts), d⟩) =
      ts.flatMap (fun t => ["-T", t])) :=
  ⟨rfl, fun _ => rfl, fun _ _ => rfl, fun _ _ => rfl⟩

/-! ## The pg_dump subprocess (dumper.rs, PgDumper::run_pg_dump) -/

/-- The argument list handed to the pg_dump subprocess (dumper.rs lines
55-60): caller passthrough arguments first, then the section selector,
then the schema-filter table arguments, with the connection URL last. -/
def pgDumpArgList (pgDumpArgs : List String) (sect : String)
    (filter : Option Filter) (dbUrl : String) : List String :=
  pgDumpArgs ++ ["--section", sect] ++ table_args filter ++ [dbUrl]

/-- One external subprocess invocation: program and arguments. -/
structure Invocation where
  program : String
  args : List String
deriving DecidableEq

/-- Mirrors PgDumper::pre_data (dumper.rs lines 186-189): the pg_dump
invocations the pre-data stage performs. -/
def preDataInvocations (loc : String) (pgDumpArgs : List String)
    (filter : Option Filter) (dbUrl : String) : List Invocation :=
  [⟨loc, pgDumpArgList pgDumpArgs "pre-data" filter dbUrl⟩]

/-- Mirrors PgDumper::post_data (dumper.rs lines 222-225): the pg_dump
invocations the post-data stage performs. -/
def postDataInvocations (loc : String) (pgDumpArgs : List String)
    (filter : Option Filter) (dbUrl : String) : List Invocation :=
  [⟨loc, pgDumpArgList pgDumpArgs "post-data" filter dbUrl⟩]

/-- C5 counterexample: with one passthrough argument and a one-table
schema Only filter, the actual pg_dump argument list differs from the
order the claim states (section selector first, then table arguments,
then passthrough arguments, then the URL). -/
theorem run_pg_dump_arg_order_cex :
    pgDumpArgList ["--no-owner"] "pre-data"
        (some ⟨some (TableList.Only ["t1"]), none⟩) "postgres://h/db" ≠
      ["--section", "pre-data", "-t", "t1", "--no-owner",
        "postgres://h/db"] := by
  decide

/-- C5 (amended): each structural stage invokes pg_dump exactly once,
with the caller passthrough arguments first, then the section selector,
then the schema-filter table arguments, and the connection URL as the
final argument. -/
theorem run_pg_dump_invocation_shape (loc : String) (pd : List String)
    (f : Option Filter) (url : String) :
    preDataInvocations loc pd f url =
      [⟨loc, pd ++ ["--section", "pre-data"] ++ table_args f ++ [url]⟩] ∧
    postDataInvocations loc pd f url =
      [⟨loc, pd ++ ["--section", "post-data"] ++ table_args f ++ [url]⟩] ∧
    (pgDumpArgList pd "pre-data" f url).getLast? = some url ∧
    (pgDumpArgList pd "post-data" f url).getLast? = some url := by
  refine ⟨rfl, rfl, ?_, ?_⟩ <;>
    rw [pgDumpArgList, List.getLast?_concat]

/-- Result of a finished subprocess, as inspected by run_pg_dump. -/
structure ProcOutput where
  success : Bool
  stdout : String
  stderr : String
deriving DecidableEq

/-- The two output channels the dumper writes to: the dump sink managed
by the DumpWriter, and the standard error stream of the process. -/
structure RunState where
  dumpSink : List String
  errSink : List String
deriving DecidableEq

/-- Outcome of one step of the dumper: either it continues with the new
state, or the whole process terminates with an exit code. -/
inductive StepResult where
  | ok (st : RunState)
  | exited (code : Nat) (st : RunState)
deriving DecidableEq

/-- The diagnostic header printed to standard error before pg_dump's own
standard error is relayed (dumper.rs lines 62-70); the joined argument
list there is the section arguments chained with the table arguments. -/
def pgDumpErrorHeader (program : String) (args : List String)
    (dbUrl : String) : String :=
  "pg_dump error. Command:\n" ++ program ++ " " ++
    String.intercalate " " args ++ " " ++ dbUrl ++ "\nOutput:"

/-- Mirrors PgDumper::run_pg_dump (dumper.rs lines 49-79): on subprocess
failure it prints the header and the subprocess standard error to the
error stream and terminates the process with exit code 1, writing
nothing to the dump sink; on success it appends the subprocess standard
output to the dump sink. -/
def run_pg_dump (pr : ProcOutput) (loc : String) (sect : String)
    (f : Option Filter) (dbUrl : String) (st : RunState) : StepResult :=
  if pr.success then
    .ok ⟨st.dumpSink ++ [pr.stdout], st.errSink⟩
  else
    .exited 1 ⟨st.dumpSink,
      st.errSink ++
        [pgDumpErrorHeader loc (["--section", sect] ++ table_args f) dbUrl,
          pr.stderr]⟩

/-- Modelled from the spec: the trait-level dump driver (its source file
is not among the given sources) runs pre-data, then the data stage, then
post-data, strictly in order, stopping at the first failing stage (spec
sections 4.5 and 5).  The data stage is abstracted as the chunk list it
would append to the dump sink. -/
def dumpRun (prPre prPost : ProcOutput) (loc : String) (f : Option Filter)
    (dbUrl : String) (dataChunks : List String) (st : RunState) :
    StepResult :=
  match run_pg_dump prPre loc "pre-data" f dbUrl st with
  | .exited c s => .exited c s
  | .ok s =>
    run_pg_dump prPost loc "post-data" f dbUrl
      ⟨s.dumpSink ++ dataChunks, s.errSink⟩

/-- C6: when pg_dump exits with failure its standard error is relayed
verbatim to the error stream, nothing is written to the dump sink, and
the process exits with status 1; in a whole run a pre-data failure
prevents the data and post-data output entirely.  The subprocess
standard output reaches the dump sink only on success. -/
theorem run_pg_dump_error_handling (pr prPost : ProcOutput) (loc : String)
    (sect : String) (f : Option Filter) (dbUrl : String)
    (dataChunks : List String) (st : RunState) :
    (pr.success = false →
      run_pg_dump pr loc sect f dbUrl st =
        .exited 1 ⟨st.dumpSink,
          st.errSink ++
            [pgDumpErrorHeader loc (["--section", sect] ++ table_args f)
              dbUrl, pr.stderr]⟩) ∧
    (pr.success = true →
      run_pg_dump pr loc sect f dbUrl st =
        .ok ⟨st.dumpSink ++ [pr.stdout], st.errSink⟩) ∧
    (pr.success = false →
      dumpRun pr prPost loc f dbUrl dataChunks st =
        .exited 1 ⟨st.dumpSink,
          st.errSink ++
            [pgDumpErrorHeader loc
              (["--section", "pre-data"] ++ table_args f) dbUrl,
              pr.stderr]⟩) := by
  refine ⟨fun h => ?_, fun h => ?_, fun h => ?_⟩
  · simp [run_pg_dump, h]
  · simp [run_pg_dump, h]
  · simp [dumpRun, run_pg_dump, h]

/-- C6 witness: a concrete failing subprocess result. -/
theorem run_pg_dump_error_handling_witness :
    run_pg_dump ⟨false, "OUT", "ERR"⟩ "pg_dump" "pre-data" none "url"
        ⟨[], []⟩ =
      .exited 1 ⟨[],
        [pgDumpErrorHeader "pg_dump" ["--section", "pre-data"] "url",
          "ERR"]⟩ :=
  (run_pg_dump_error_handling ⟨false, "OUT", "ERR"⟩ ⟨true, "", ""⟩
    "pg_dump" "pre-data" none "url" [] ⟨[], []⟩).1 rfl

/-! ## Locale dispatch (datanymizer_engine/src/locale/mod.rs) -/

/-- Mirrors the LocaleConfig enumeration (locale/mod.rs lines 16-20). -/
inductive LocaleConfig where
  | EN
  | RU
  | ZH_TW
deriving DecidableEq

/-- Mirrors Default for LocaleConfig (locale/mod.rs lines 22-27). -/
def LocaleConfig.default : LocaleConfig := .EN

/-- A localized faker: the optional rule-local locale from the Localized
trait together with its fake generator, one implementation per locale
(the fake method of the LocalizedFaker trait, kept abstract). -/
structure LocalizedFaker (V : Type) where
  locale : Option LocaleConfig
  fake : LocaleConfig → V

/-- Mirrors LocalizedFaker::localized_fake (locale/mod.rs lines 37-43):
resolve the locale, then dispatch to the generator bound to it. -/
def localized_fake {V : Type} (f : LocalizedFaker V) : V :=
  match f.locale.getD LocaleConfig.default with
  | .EN => f.fake .EN
  | .RU => f.fake .RU
  | .ZH_TW => f.fake .ZH_TW

/-- The effective locale in the words of the spec: the rule-local locale
when set, otherwise the fixed global default. -/
def effectiveLocale {V : Type} (f : LocalizedFaker V) : LocaleConfig :=
  f.locale.getD LocaleConfig.default

/-- C7: localized_fake invokes exactly the generator bound to the
effective locale, where the effective locale is the faker's own locale
when set and the fixed default EN otherwise. -/
theorem localized_fake_dispatch {V : Type} (f : LocalizedFaker V) :
    localized_fake f = f.fake (effectiveLocale f) ∧
    (∀ l, f.locale = some l → effectiveLocale f = l) ∧
    (f.locale = none → effectiveLocale f = LocaleConfig.EN) ∧
    LocaleConfig.default = LocaleConfig.EN := by
  refine ⟨?_, fun l h => ?_, fun h => ?_, rfl⟩
  · unfold localized_fake effectiveLocale
    cases f.locale.getD LocaleConfig.default <;> rfl
  · simp [effectiveLocale, h]
  · simp [effectiveLocale, h, LocaleConfig.default]

/-- C7 witness: a concrete faker with locale RU returns the RU
generator output; one with no locale returns the EN generator output. -/
theorem localized_fake_dispatch_witness :
    localized_fake (⟨some LocaleConfig.RU, id⟩ :
        LocalizedFaker LocaleConfig) = LocaleConfig.RU ∧
    localized_fake (⟨none, id⟩ : LocalizedFaker LocaleConfig) =
      LocaleConfig.EN :=
  ⟨by
    rw [(localized_fake_dispatch ⟨some LocaleConfig.RU, id⟩).1,
      (localized_fake_dispatch ⟨some LocaleConfig.RU, id⟩).2.1
        LocaleConfig.RU rfl]
    rfl,
  by
    rw [(localized_fake_dispatch ⟨none, id⟩).1,
      (localized_fake_dispatch ⟨none, id⟩).2.2.1 rfl]
    rfl⟩


/-! ## Dump destination and log suppression -/

/-- Modelled from the spec: the DumpWriter (its source file is not among
the given sources) wraps either a file target or standard output; an
absent target means the dump goes to standard output (spec section
4.7). -/
structure DumpWriter where
  target : Option String
deriving DecidableEq

/-- Modelled from the spec: can_log_to_stdout() is true exactly when the
dump is not being written to standard output, that is, when a file
target is configured (spec sections 4.7 and 6). -/
def can_log_to_stdout (w : DumpWriter) : Bool := w.target.isSome

/-- Visibility of the progress bar chosen in PgDumper::new. -/
inductive ProgressBarState where
  | visible
  | hidden
deriving DecidableEq

/-- Mirrors PgDumper::new (dumper.rs lines 32-37): the progress bar is a
real bar when logging to standard output is permitted and a hidden bar
otherwise. -/
def newProgressBar (target : Option String) : ProgressBarState :=
  if can_log_to_stdout ⟨target⟩ then .visible else .hidden

/-- Mirrors PgDumper::debug (dumper.rs lines 241-245): the lines one
debug call prints to standard output. -/
def debugLines (w : DumpWriter) (message : String) : List String :=
  if can_log_to_stdout w then [message] else []

/-- C8: when the dump destination is standard output (no file target),
debug prints nothing and the progress bar is hidden; with a file target
the debug text is shown and the bar is visible — all decided by
can_log_to_stdout. -/
theorem debug_suppressed_on_stdout (msg fileName : String) :
    debugLines ⟨none⟩ msg = [] ∧
    newProgressBar none = ProgressBarState.hidden ∧
    can_log_to_stdout ⟨none⟩ = false ∧
    debugLines ⟨some fileName⟩ msg = [msg] ∧
    newProgressBar (some fileName) = ProgressBarState.visible ∧
    can_log_to_stdout ⟨some fileName⟩ = true :=
  ⟨rfl, rfl, rfl, rfl, rfl, rfl⟩

/-! ## Per-table dump trace (dumper.rs, PgDumper::dump_table)

dump_table interleaves three kinds of effects on the transaction and
the dump sink: reading one row line from the copy-out reader, writing a
byte chunk to the dump sink, and running one value query on the
transaction.  We embed it as the chronological list of those events. -/

/-- One observable effect of dump_table, in chronological order. -/
inductive Ev where
  | readRow (line : String)
  | write (chunk : String)
  | query (q : String)
deriving DecidableEq

/-- True on row-read events. -/
def Ev.isRead : Ev → Bool
  | .readRow _ => true
  | _ => false

/-- True on transaction-query events. -/
def Ev.isQuery : Ev → Bool
  | .query _ => true
  | _ => false

/-- A sequence owned by the table, as used by dump_table: its last-value
query text and its setval statement builder (both built by the table
module, whose file is not among the given sources, so they stay
abstract here). -/
structure PgSequence where
  lastValueQuery : String
  setvalQuery : Int → String

/-- Mirrors Dumper::write_log (dumper.rs lines 235-239): the decorated
log chunk written into the dump sink. -/
def write_log_text (message : String) : String :=
  "\n---\n--- " ++ message ++ "\n---\n"

/-- Events of one transformed row iteration (dumper.rs lines 131-141):
read the line, write the transformed line, write a newline. -/
def rowEventsT (transform : String → String) (line : String) : List Ev :=
  [.readRow line, .write (transform line), .write "\n"]

/-- Events of one untransformed row iteration (dumper.rs lines
146-154): read the line, write it verbatim, write a newline. -/
def rowEventsU (line : String) : List Ev :=
  [.readRow line, .write line, .write "\n"]

/-- Events for one owned sequence (dumper.rs lines 158-164): query the
last value from the transaction, then write the setval statement with
that literal value, framed by newlines. -/
def seqEvents (db : String → Int) (sq : PgSequence) : List Ev :=
  [.query sq.lastValueQuery, .write "\n",
    .write (sq.setvalQuery (db sq.lastValueQuery)), .write "\n"]

/-- The chunks written before any row (dumper.rs lines 118-122): the
table log marker and the copy-out preamble framed by newlines. -/
def headerEvents (tableName queryFrom : String) : List Ev :=
  [.write (write_log_text ("Dump table: " ++ tableName)),
    .write "\n", .write queryFrom, .write "\n"]

/-- Mirrors PgDumper::dump_table (dumper.rs lines 114-177) as an event
trace.  The two optional row streams correspond to the optional
transformed and untransformed copy-out queries; db gives the
transaction's answer to a value query; the row transformation is the
engine call row.transform. -/
def dump_table (transform : String → String)
    (tableName queryFrom : String) (tRows uRows : Option (List String))
    (seqs : List PgSequence) (db : String → Int) : List Ev :=
  let t0 := headerEvents tableName queryFrom
  let t1 :=
    match tRows with
    | some rows =>
      rows.foldl (fun st line => st ++ rowEventsT transform line) t0
    | none => t0
  let t2 :=
    match uRows with
    | some rows => rows.foldl (fun st line => st ++ rowEventsU line) t1
    | none => t1
  let t3 := t2 ++ [.write "\\.\n"]
  seqs.foldl (fun st sq => st ++ seqEvents db sq) t3

theorem foldl_append_flatMap {α β : Type} (g : α → List β)
    (rows : List α) (t0 : List β) :
    rows.foldl (fun st line => st ++ g line) t0 = t0 ++ rows.flatMap g := by
  induction rows generalizing t0 with
  | nil => simp
  | cons r rs ih => simp [List.foldl_cons, ih, List.flatMap_cons]

theorem dump_table_eq (transform : String → String)
    (tableName queryFrom : String) (tRows uRows : Option (List String))
    (seqs : List PgSequence) (db : String → Int) :
    dump_table transform tableName queryFrom tRows uRows seqs db =
      (headerEvents tableName queryFrom
          ++ (tRows.getD []).flatMap (rowEventsT transform)
          ++ (uRows.getD []).flatMap rowEventsU)
        ++ Ev.write "\\.\n" :: seqs.flatMap (seqEvents db) := by
  unfold dump_table
  cases tRows <;> cases uRows <;>
    simp [foldl_append_flatMap, List.append_assoc]

theorem countP_flatMap_rowEventsT (transform : String → String)
    (rows : List String) :
    ((rows.flatMap (rowEventsT transform)).countP Ev.isRead) =
      rows.length := by
  induction rows with
  | nil => rfl
  | cons r rs ih =>
    simp [List.flatMap_cons, List.countP_append, rowEventsT,
      List.countP_cons, Ev.isRead, ih]

theorem countP_flatMap_rowEventsU (rows : List String) :
    ((rows.flatMap rowEventsU).countP Ev.isRead) = rows.length := by
  induction rows with
  | nil => rfl
  | cons r rs ih =>
    simp [List.flatMap_cons, List.countP_append, rowEventsU,
      List.countP_cons, Ev.isRead, ih]

theorem countP_flatMap_seqEvents (db : String → Int)
    (seqs : List PgSequence) :
    ((seqs.flatMap (seqEvents db)).countP Ev.isQuery) = seqs.length := by
  induction seqs with
  | nil => rfl
  | cons sq sqs ih =>
    simp [List.flatMap_cons, List.countP_append, seqEvents,
      List.countP_cons, Ev.isQuery, ih]

theorem no_query_in_rowPart (transform : String → String)
    (tableName queryFrom : String) (tRows uRows : List String) :
    ∀ e ∈ headerEvents tableName queryFrom
        ++ tRows.flatMap (rowEventsT transform)
        ++ uRows.flatMap rowEventsU,
      e.isQuery = false := by
  intro e he
  rcases List.mem_append.mp he with he | he
  · rcases List.mem_append.mp he with he | he
    · simp only [headerEvents, List.mem_cons, List.mem_singleton] at he
      rcases he with rfl | rfl | rfl | he
      · rfl
      · rfl
      · rfl
      · simp at he
        subst he
        rfl
    · rcases List.mem_flatMap.mp he with ⟨r, _, hr⟩
      simp only [rowEventsT, List.mem_cons, List.mem_singleton] at hr
      rcases hr with rfl | rfl | hr
      · rfl
      · rfl
      · simp at hr
        subst hr
        rfl
  · rcases List.mem_flatMap.mp he with ⟨r, _, hr⟩
    simp only [rowEventsU, List.mem_cons, List.mem_singleton] at hr
    rcases hr with rfl | rfl | hr
    · rfl
    · rfl
    · simp at hr
      subst hr
      rfl

theorem no_read_in_seqPart (db : String → Int) (seqs : List PgSequence) :
    ∀ e ∈ seqs.flatMap (seqEvents db), e.isRead = false := by
  intro e he
  rcases List.mem_flatMap.mp he with ⟨sq, _, hsq⟩
  simp only [seqEvents, List.mem_cons, List.mem_singleton] at hsq
  rcases hsq with rfl | rfl | rfl | hsq
  · rfl
  · rfl
  · rfl
  · simp at hsq
    subst hsq
    rfl

/-- C3: dump_table emits its events in two phases separated by the copy
terminator chunk.  The first phase contains exactly one row-read per
dumped row and no transaction query; the second phase is exactly, per
owned sequence in order, one last-value query followed by the write of
one setval statement using the queried value — so N sequences give
exactly N setval statements, all after the row data and the terminator,
and every last-value query runs after all M rows were read and
written. -/
theorem dump_table_sequence_resync (transform : String → String)
    (tableName queryFrom : String) (tRows uRows : Option (List String))
    (seqs : List PgSequence) (db : String → Int) :
    ∃ rowPhase : List Ev,
      dump_table transform tableName queryFrom tRows uRows seqs db =
        rowPhase ++ Ev.write "\\.\n" :: seqs.flatMap (seqEvents db) ∧
      rowPhase.countP Ev.isRead =
        (tRows.getD []).length + (uRows.getD []).length ∧
      (∀ e ∈ rowPhase, e.isQuery = false) ∧
      (seqs.flatMap (seqEvents db)).countP Ev.isQuery = seqs.length ∧
      (∀ sq ∈ seqs, (seqEvents db sq).countP Ev.isQuery = 1 ∧
        seqEvents db sq =
          [Ev.query sq.lastValueQuery, Ev.write "\n",
            Ev.write (sq.setvalQuery (db sq.lastValueQuery)),
            Ev.write "\n"]) ∧
      (∀ e ∈ seqs.flatMap (seqEvents db), e.isRead = false) := by
  refine ⟨headerEvents tableName queryFrom
      ++ (tRows.getD []).flatMap (rowEventsT transform)
      ++ (uRows.getD []).flatMap rowEventsU,
    dump_table_eq transform tableName queryFrom tRows uRows seqs db,
    ?_, ?_, ?_, ?_, ?_⟩
  · simp [List.countP_append, countP_flatMap_rowEventsT,
      countP_flatMap_rowEventsU, headerEvents, List.countP_cons,
      Ev.isRead]
  · exact no_query_in_rowPart transform tableName queryFrom _ _
  · exact countP_flatMap_seqEvents db seqs
  · intro sq _
    exact ⟨rfl, rfl⟩
  · exact no_read_in_seqPart db seqs

/-! ## Connection URL construction (cli options.rs, Options::database_url)

Options::database_url builds on the url crate, whose source is not part
of this repository; the crate's behaviour on the URL shapes the CLI
produces is modelled below (a scheme, optional userinfo, host, optional
port, path), restricted to components over URL-safe characters, for
which the crate performs no percent-encoding. -/

/-- Characters we allow in URL components: alphanumeric plus a few
punctuation marks that the url crate passes through unencoded and that
are distinct from the structural delimiters. -/
def urlSafeChar (c : Char) : Bool :=
  c.isAlphanum || c == '_' || c == '-' || c == '.'

theorem urlSafeChar_ne_colon {c : Char} (h : urlSafeChar c = true) :
    (c == ':') = false := by
  simp only [beq_eq_false_iff_ne, ne_eq]
  intro hc
  subst hc
  revert h
  decide

theorem urlSafeChar_ne_at {c : Char} (h : urlSafeChar c = true) :
    (c == '@') = false := by
  simp only [beq_eq_false_iff_ne, ne_eq]
  intro hc
  subst hc
  revert h
  decide

theorem urlSafeChar_ne_slash {c : Char} (h : urlSafeChar c = true) :
    (c == '/') = false := by
  simp only [beq_eq_false_iff_ne, ne_eq]
  intro hc
  subst hc
  revert h
  decide

theorem isDigit_urlSafeChar {c : Char} (h : c.isDigit = true) :
    urlSafeChar c = true := by
  simp [urlSafeChar, Char.isAlphanum, h]

/-- Splits a character list at the first character satisfying p: the
first component is the longest p-free lead, the second the rest
starting with the hit (or empty). -/
def spanNot (p : Char → Bool) : List Char → List Char × List Char
  | [] => ([], [])
  | c :: cs =>
    if p c then ([], c :: cs)
    else
      let r := spanNot p cs
      (c :: r.1, r.2)

theorem spanNot_all (p : Char → Bool) (xs : List Char)
    (h : ∀ c ∈ xs, p c = false) : spanNot p xs = (xs, []) := by
  induction xs with
  | nil => rfl
  | cons c cs ih =>
    have hc := h c (List.mem_cons_self _ _)
    simp [spanNot, hc, ih (fun d hd => h d (List.mem_cons_of_mem _ hd))]

theorem spanNot_hit (p : Char → Bool) (xs : List Char) (d : Char)
    (rest : List Char) (h : ∀ c ∈ xs, p c = false) (hd : p d = true) :
    spanNot p (xs ++ d :: rest) = (xs, d :: rest) := by
  induction xs with
  | nil => simp [spanNot, hd]
  | cons c cs ih =>
    have hc := h c (List.mem_cons_self _ _)
    simp [spanNot, hc, ih (fun e he => h e (List.mem_cons_of_mem _ he))]

/-- Decimal digit character for one digit value. -/
def digitChar (n : Nat) : Char :=
  match n with
  | 0 => '0' | 1 => '1' | 2 => '2' | 3 => '3' | 4 => '4'
  | 5 => '5' | 6 => '6' | 7 => '7' | 8 => '8' | _ => '9'

/-- Numeric value of a digit character. -/
def digitVal (c : Char) : Nat := c.toNat - 48

/-- Decimal rendering of a natural number, with explicit fuel so that it
is structurally recursive. -/
def natCharsAux : Nat → Nat → List Char
  | 0, _ => []
  | fuel + 1, n =>
    if n < 10 then [digitChar n]
    else natCharsAux fuel (n / 10) ++ [digitChar (n % 10)]

/-- Decimal rendering of a natural number. -/
def natChars (n : Nat) : List Char := natCharsAux (n + 1) n

/-- Decimal parsing of a digit-character list. -/
def charsToNat (cs : List Char) : Nat :=
  cs.foldl (fun acc c => acc * 10 + digitVal c) 0

theorem digitVal_digitChar {n : Nat} (h : n < 10) :
    digitVal (digitChar n) = n := by
  interval_cases n <;> rfl

theorem isDigit_digitChar {n : Nat} (h : n < 10) :
    (digitChar n).isDigit = true := by
  interval_cases n <;> rfl

theorem natCharsAux_spec (fuel : Nat) :
    ∀ n, n < fuel →
      charsToNat (natCharsAux fuel n) = n ∧
      natCharsAux fuel n ≠ [] ∧
      ∀ c ∈ natCharsAux fuel n, c.isDigit = true := by
  induction fuel with
  | zero => intro n hn; omega
  | succ fuel ih =>
    intro n hn
    by_cases h10 : n < 10
    · refine ⟨?_, by simp [natCharsAux, h10], ?_⟩
      · simp [natCharsAux, h10, charsToNat, digitVal_digitChar h10]
      · intro c hc
        simp [natCharsAux, h10] at hc
        subst hc
        exact isDigit_digitChar h10
    · have hdiv : n / 10 < fuel := by omega
      rcases ih (n / 10) hdiv with ⟨hval, hne, hdig⟩
      refine ⟨?_, by simp [natCharsAux, h10], ?_⟩
      · have : charsToNat (natCharsAux fuel (n / 10) ++ [digitChar (n % 10)])
            = charsToNat (natCharsAux fuel (n / 10)) * 10
              + digitVal (digitChar (n % 10)) := by
          simp [charsToNat, List.foldl_append]
        rw [natCharsAux]
        simp only [h10, if_false]
        rw [this, hval, digitVal_digitChar (by omega)]
        omega
      · intro c hc
        rw [natCharsAux] at hc
        simp only [h10, if_false, List.mem_append, List.mem_singleton] at hc
        rcases hc with hc | rfl
        · exact hdig c hc
        · exact isDigit_digitChar (by omega)

theorem charsToNat_natChars (n : Nat) : charsToNat (natChars n) = n :=
  (natCharsAux_spec (n + 1) n (by omega)).1

theorem natChars_ne_nil (n : Nat) : natChars n ≠ [] :=
  (natCharsAux_spec (n + 1) n (by omega)).2.1

theorem natChars_digits (n : Nat) :
    ∀ c ∈ natChars n, c.isDigit = true :=
  (natCharsAux_spec (n + 1) n (by omega)).2.2

/-- Modelled from the spec: the parsed URL of the url crate, restricted
to the shape the CLI handles — a scheme, optional userinfo, host,
optional port and a path; cannotBeABase marks URLs whose remainder after
the scheme is an opaque path (no authority). -/
structure Url where
  scheme : String
  username : String
  password : Option String
  host : String
  port : Option Nat
  path : String
  cannotBeABase : Bool
deriving DecidableEq

/-- The characters of an optional password value. -/
def pwData : Option String → List Char
  | some s => s.data
  | none => []

/-- The serialized colon-password section. -/
def pwChars : Option String → List Char
  | some s => ':' :: s.data
  | none => []

/-- Serialized userinfo section: empty when there is neither username
nor password, otherwise username, an optional colon-password, and the
terminating at sign. -/
def userinfoChars (uname : String) (pw : Option String) : List Char :=
  if uname = "" ∧ pw = none then []
  else uname.data ++ pwChars pw ++ ['@']

/-- Serialized port section: colon and decimal digits, or nothing. -/
def portChars : Option Nat → List Char
  | some n => ':' :: natChars n
  | none => []

/-- Modelled from the spec: serialization of a URL (the url crate's
to_string) for the shapes handled here. -/
def urlChars (u : Url) : List Char :=
  if u.cannotBeABase then u.scheme.data ++ ':' :: u.path.data
  else
    u.scheme.data ++ ':' :: '/' :: '/' ::
      (userinfoChars u.username u.password ++ u.host.data
        ++ portChars u.port ++ u.path.data)

def urlToString (u : Url) : String := ⟨urlChars u⟩

/-- Scheme well-formedness: one letter followed by letters, digits, or
plus, minus, dot. -/
def schemeOkChars (cs : List Char) : Bool :=
  match cs with
  | [] => false
  | c :: rest =>
    c.isAlpha &&
      rest.all (fun d => d.isAlphanum || d == '+' || d == '-' || d == '.')

/-- Parses the text after the host colon: absent or empty means no
port; otherwise all characters must be digits and the value must fit a
16-bit port. -/
def parsePort (cs : List Char) : Option (Option Nat) :=
  match cs with
  | [] => some none
  | _ :: pcs =>
    if pcs = [] then some none
    else if pcs.all Char.isDigit = true ∧ charsToNat pcs < 65536 then
      some (some (charsToNat pcs))
    else none

/-- Splits a userinfo section at the first colon into username and
optional password. -/
def parseUserinfo (ui : List Char) : String × Option String :=
  let r := spanNot (fun c => c == ':') ui
  if r.2 = [] then (⟨r.1⟩, none) else (⟨r.1⟩, some ⟨r.2.drop 1⟩)

/-- Splits an authority at the userinfo terminator: when an at sign is
present, everything before the first one is the userinfo and everything
after it holds host and port; otherwise there is no userinfo. -/
def splitUserinfo (auth : List Char) : Option (List Char) × List Char :=
  if auth.any (fun c => c == '@') then
    let r := spanNot (fun c => c == '@') auth
    (some r.1, r.2.drop 1)
  else (none, auth)

/-- Parses the authority-plus-path remainder after scheme://. -/
def parseAuthority (scheme : String) (r : List Char) : Option Url :=
  let ap := spanNot (fun c => c == '/') r
  let uio := splitUserinfo ap.1
  let up : String × Option String :=
    match uio.1 with
    | some ui => parseUserinfo ui
    | none => ("", none)
  let hp := spanNot (fun c => c == ':') uio.2
  match parsePort hp.2 with
  | some port => some ⟨scheme, up.1, up.2, ⟨hp.1⟩, port, ⟨ap.2⟩, false⟩
  | none => none

/-- Modelled from the spec: the url crate's parser, restricted to the
scheme-colon grammar — a valid scheme followed by either a
double-slash authority section or an opaque (cannot-be-a-base) path. -/
def parseUrlChars (l : List Char) : Option Url :=
  let sr := spanNot (fun c => c == ':') l
  match sr.2 with
  | [] => none
  | _ :: r2 =>
    if schemeOkChars sr.1 = true then
      match r2 with
      | '/' :: '/' :: r3 => parseAuthority ⟨sr.1⟩ r3
      | _ => some ⟨⟨sr.1⟩, "", none, "", none, ⟨r2⟩, true⟩
    else none

def parseUrl (s : String) : Option Url := parseUrlChars s.data

theorem mem_userinfoChars {c : Char} (uname : String) (pw : Option String)
    (hu : ∀ d ∈ uname.data, urlSafeChar d = true)
    (hp : ∀ d ∈ pwData pw, urlSafeChar d = true)
    (hc : c ∈ userinfoChars uname pw) :
    c = '@' ∨ c = ':' ∨ urlSafeChar c = true := by
  unfold userinfoChars at hc
  by_cases h : uname = "" ∧ pw = none
  · rw [if_pos h] at hc
    simp at hc
  · rw [if_neg h] at hc
    rcases List.mem_append.mp hc with hc | hc
    · rcases List.mem_append.mp hc with hc | hc
      · exact Or.inr (Or.inr (hu c hc))
      · cases pw with
        | none => simp [pwChars] at hc
        | some s =>
          simp only [pwChars, List.mem_cons] at hc
          rcases hc with rfl | hc
          · exact Or.inr (Or.inl rfl)
          · exact Or.inr (Or.inr (hp c hc))
    · simp only [List.mem_singleton] at hc
      subst hc
      exact Or.inl rfl

theorem mem_portChars {c : Char} (port : Option Nat)
    (hc : c ∈ portChars port) : c = ':' ∨ c.isDigit = true := by
  cases port with
  | none => simp [portChars] at hc
  | some n =>
    simp only [portChars, List.mem_cons] at hc
    rcases hc with rfl | hc
    · exact Or.inl rfl
    · exact Or.inr (natChars_digits n c hc)

theorem authChars_no_slash (uname hostS : String) (pw : Option String)
    (port : Option Nat)
    (hu : ∀ d ∈ uname.data, urlSafeChar d = true)
    (hp : ∀ d ∈ pwData pw, urlSafeChar d = true)
    (hh : ∀ d ∈ hostS.data, urlSafeChar d = true) :
    ∀ c ∈ userinfoChars uname pw ++ hostS.data ++ portChars port,
      (c == '/') = false := by
  intro c hc
  rcases List.mem_append.mp hc with hc | hc
  · rcases List.mem_append.mp hc with hc | hc
    · rcases mem_userinfoChars uname pw hu hp hc with rfl | rfl | hs
      · rfl
      · rfl
      · exact urlSafeChar_ne_slash hs
    · exact urlSafeChar_ne_slash (hh c hc)
  · rcases mem_portChars port hc with rfl | hd
    · rfl
    · exact urlSafeChar_ne_slash (isDigit_urlSafeChar hd)

theorem spanNot_hostport (hostS : String) (port : Option Nat)
    (hh : ∀ c ∈ hostS.data, urlSafeChar c = true) :
    spanNot (fun c => c == ':') (hostS.data ++ portChars port) =
      (hostS.data, portChars port) := by
  cases port with
  | none =>
    rw [portChars, List.append_nil]
    exact spanNot_all _ _ (fun c hc => urlSafeChar_ne_colon (hh c hc))
  | some n =>
    exact spanNot_hit _ _ _ _
      (fun c hc => urlSafeChar_ne_colon (hh c hc)) rfl

theorem parsePort_portChars (port : Option Nat)
    (h : ∀ n, port = some n → n < 65536) :
    parsePort (portChars port) = some port := by
  cases port with
  | none => rfl
  | some n =>
    have hne := natChars_ne_nil n
    have hdig : (natChars n).all Char.isDigit = true :=
      List.all_eq_true.mpr (fun c hc => natChars_digits n c hc)
    have hlt : charsToNat (natChars n) < 65536 := by
      rw [charsToNat_natChars]
      exact h n rfl
    rw [portChars, parsePort, if_neg hne, if_pos ⟨hdig, hlt⟩,
      charsToNat_natChars]

theorem parseUserinfo_eq (uname : String) (pw : Option String)
    (hu : ∀ c ∈ uname.data, urlSafeChar c = true) :
    parseUserinfo (uname.data ++ pwChars pw) = (uname, pw) := by
  have hfree : ∀ c ∈ uname.data, (fun c => c == ':') c = false :=
    fun c hc => urlSafeChar_ne_colon (hu c hc)
  cases pw with
  | none =>
    show parseUserinfo (uname.data ++ []) = _
    rw [List.append_nil]
    unfold parseUserinfo
    rw [spanNot_all _ _ hfree]
    rfl
  | some s =>
    unfold parseUserinfo
    rw [show pwChars (some s) = ':' :: s.data from rfl,
      spanNot_hit _ _ ':' s.data hfree rfl]
    rfl

theorem splitUserinfo_some (uname : String) (pw : Option String)
    (rest : List Char)
    (hu : ∀ c ∈ uname.data, urlSafeChar c = true)
    (hp : ∀ c ∈ pwData pw, urlSafeChar c = true)
    (hne : ¬(uname = "" ∧ pw = none)) :
    splitUserinfo (userinfoChars uname pw ++ rest) =
      (some (uname.data ++ pwChars pw), rest) := by
  have hform : userinfoChars uname pw ++ rest =
      (uname.data ++ pwChars pw) ++ '@' :: rest := by
    unfold userinfoChars
    rw [if_neg hne, List.append_assoc]
    rfl
  have hNoAt : ∀ c ∈ uname.data ++ pwChars pw,
      (fun c => c == '@') c = false := by
    intro c hc
    rcases List.mem_append.mp hc with hc | hc
    · exact urlSafeChar_ne_at (hu c hc)
    · cases pw with
      | none => simp [pwChars] at hc
      | some s =>
        simp only [pwChars, List.mem_cons] at hc
        rcases hc with rfl | hc
        · rfl
        · exact urlSafeChar_ne_at (hp c hc)
  have hany : (userinfoChars uname pw ++ rest).any
      (fun c => c == '@') = true := by
    rw [List.any_eq_true]
    refine ⟨'@', ?_, rfl⟩
    rw [hform]
    exact List.mem_append.mpr (Or.inr (List.mem_cons_self _ _))
  unfold splitUserinfo
  rw [if_pos hany, hform, spanNot_hit _ _ '@' rest hNoAt rfl]
  rfl

theorem splitUserinfo_none (rest : List Char)
    (hrest : ∀ c ∈ rest, (c == '@') = false) :
    splitUserinfo rest = (none, rest) := by
  have hany : rest.any (fun c => c == '@') = false :=
    List.any_eq_false.mpr (fun c hc => by simp [hrest c hc])
  unfold splitUserinfo
  rw [if_neg (by rw [hany]; exact Bool.false_ne_true)]

theorem parseAuthority_eq (sch uname hostS : String) (pw : Option String)
    (port : Option Nat) (pr : List Char)
    (hu : ∀ c ∈ uname.data, urlSafeChar c = true)
    (hp : ∀ c ∈ pwData pw, urlSafeChar c = true)
    (hh : ∀ c ∈ hostS.data, urlSafeChar c = true)
    (hpt : ∀ n, port = some n → n < 65536) :
    parseAuthority sch
        (userinfoChars uname pw ++ hostS.data ++ portChars port
          ++ '/' :: pr) =
      some ⟨sch, uname, pw, hostS, port, ⟨'/' :: pr⟩, false⟩ := by
  have hsplit : spanNot (fun c => c == '/')
      (userinfoChars uname pw ++ hostS.data ++ portChars port
        ++ '/' :: pr) =
      (userinfoChars uname pw ++ hostS.data ++ portChars port,
        '/' :: pr) :=
    spanNot_hit _ _ '/' pr (authChars_no_slash uname hostS pw port hu hp hh)
      rfl
  have hhostport : ∀ c ∈ hostS.data ++ portChars port,
      (c == '@') = false := by
    intro c hc
    rcases List.mem_append.mp hc with hc | hc
    · exact urlSafeChar_ne_at (hh c hc)
    · rcases mem_portChars port hc with rfl | hd
      · rfl
      · exact urlSafeChar_ne_at (isDigit_urlSafeChar hd)
  simp only [List.append_assoc] at hsplit
  by_cases hempty : uname = "" ∧ pw = none
  · obtain ⟨h1, h2⟩ := hempty
    subst h1
    subst h2
    simp only [show userinfoChars "" none = [] from rfl, List.nil_append,
      List.append_assoc] at hsplit ⊢
    simp only [parseAuthority, hsplit, splitUserinfo_none _ hhostport,
      spanNot_hostport hostS port hh, parsePort_portChars port hpt]
  · have hsome := splitUserinfo_some uname pw
      (hostS.data ++ portChars port) hu hp hempty
    simp only [parseAuthority, List.append_assoc, hsplit, hsome,
      parseUserinfo_eq uname pw hu, spanNot_hostport hostS port hh,
      parsePort_portChars port hpt]

theorem parseUrlChars_shape (inner : List Char) :
    parseUrlChars ("postgres".data ++ ':' :: '/' :: '/' :: inner) =
      parseAuthority "postgres" inner := by
  unfold parseUrlChars
  rw [spanNot_hit (fun c => c == ':') "postgres".data ':'
    ('/' :: '/' :: inner) (by decide) rfl]
  rfl

/-- Modelled from the spec: Url::set_port — rejected on
cannot-be-a-base URLs. -/
def set_port (u : Url) (p : Option Nat) : Option Url :=
  if u.cannotBeABase then none
  else some ⟨u.scheme, u.username, u.password, u.host, p, u.path,
    u.cannotBeABase⟩

/-- Modelled from the spec: Url::set_username for URL-safe names —
rejected on cannot-be-a-base URLs. -/
def set_username (u : Url) (name : String) : Option Url :=
  if u.cannotBeABase then none
  else some ⟨u.scheme, name, u.password, u.host, u.port, u.path,
    u.cannotBeABase⟩

/-- Modelled from the spec: Url::set_password for URL-safe passwords —
rejected on cannot-be-a-base URLs. -/
def set_password (u : Url) (pw : Option String) : Option Url :=
  if u.cannotBeABase then none
  else some ⟨u.scheme, u.username, pw, u.host, u.port, u.path,
    u.cannotBeABase⟩

/-- Modelled from the spec: Url::set_path — a path not starting with a
slash gets one prepended. -/
def set_path (u : Url) (p : String) : Url :=
  let p2 : String := if p.data.head? = some '/' then p else ⟨'/' :: p.data⟩
  ⟨u.scheme, u.username, u.password, u.host, u.port, p2, u.cannotBeABase⟩

/-- Mirrors the CLI Options fields (options.rs lines 5-76); ports are
naturals below 65536 where the Rust field is a u16. -/
structure Options where
  database : String
  config : String
  file : Option String
  db_name : String
  host : String
  port : Option Nat
  username : Option String
  password : Option String
  pg_dump_location : String
  accept_invalid_hostnames : Bool
  accept_invalid_certs : Bool
  pg_dump_args : List String
deriving DecidableEq

/-- Mirrors Options::build_url (options.rs lines 90-109). -/
def build_url (o : Options) (override_db_name : Option String) :
    Except String Url :=
  let db_name := override_db_name.getD o.db_name
  if db_name = "" then .error "No one database passed"
  else
    match parseUrl ("postgres://" ++ o.host) with
    | none => .error "Url parse error"
    | some u =>
      match set_port u o.port with
      | none => .error "Cannot set port"
      | some u =>
        match set_username u (o.username.getD "") with
        | none => .error "Cannot set username"
        | some u =>
          match set_password u o.password with
          | none => .error "Cannot set password"
          | some u => .ok (set_path u db_name)

/-- Mirrors Options::database_url (options.rs lines 79-88): a database
argument that parses as a URL is returned as-is when its scheme is
postgres and rejected otherwise; a non-parsing argument is passed to
build_url, empty meaning absent. -/
def database_url (o : Options) : Except String Url :=
  match parseUrl o.database with
  | some url =>
    if url.scheme = "postgres" then .ok url else .error "Scheme url error"
  | none =>
    build_url o ((some o.database).filter (fun x => !(x == "")))

theorem parseUrl_roundtrip (u : Url)
    (hsch : u.scheme = "postgres")
    (hcb : u.cannotBeABase = false)
    (hh : ∀ c ∈ u.host.data, urlSafeChar c = true)
    (hu : ∀ c ∈ u.username.data, urlSafeChar c = true)
    (hp : ∀ c ∈ pwData u.password, urlSafeChar c = true)
    (hpath : u.path.data.head? = some '/')
    (hpt : ∀ n, u.port = some n → n < 65536) :
    parseUrl (urlToString u) = some u := by
  obtain ⟨pr, hpr⟩ : ∃ pr, u.path.data = '/' :: pr := by
    cases hpd : u.path.data with
    | nil => rw [hpd] at hpath; simp at hpath
    | cons c cs =>
      rw [hpd] at hpath
      simp only [List.head?_cons, Option.some.injEq] at hpath
      exact ⟨cs, by rw [hpath]⟩
  show parseUrlChars (urlChars u) = some u
  have hchars : urlChars u = "postgres".data ++ ':' :: '/' :: '/' ::
      (userinfoChars u.username u.password ++ u.host.data
        ++ portChars u.port ++ '/' :: pr) := by
    unfold urlChars
    rw [if_neg (by rw [hcb]; exact Bool.false_ne_true), hsch, hpr]
  rw [hchars, parseUrlChars_shape,
    parseAuthority_eq "postgres" u.username u.host u.password u.port pr
      hu hp hh hpt, ← hsch, ← hcb, ← hpr]

theorem parseUrl_postgres_host (h : String)
    (hs : ∀ c ∈ h.data, urlSafeChar c = true) :
    parseUrl ("postgres://" ++ h) =
      some ⟨"postgres", "", none, h, none, "", false⟩ := by
  show parseUrlChars ("postgres://" ++ h).data = _
  have hd : ("postgres://" ++ h).data =
      "postgres".data ++ ':' :: '/' :: '/' :: h.data := by
    rw [String.data_append]
    exact rfl
  rw [hd, parseUrlChars_shape]
  have hns : spanNot (fun c => c == '/') h.data = (h.data, []) :=
    spanNot_all _ _ (fun c hc => urlSafeChar_ne_slash (hs c hc))
  have hna : ∀ c ∈ h.data, (c == '@') = false :=
    fun c hc => urlSafeChar_ne_at (hs c hc)
  simp only [parseAuthority, hns, splitUserinfo_none _ hna,
    spanNot_all (fun c => c == ':') h.data
      (fun c hc => urlSafeChar_ne_colon (hs c hc))]
  rfl

theorem build_url_eq (o : Options) (ov : Option String)
    (hh : ∀ c ∈ o.host.data, urlSafeChar c = true)
    (hdb : ¬ (ov.getD o.db_name) = "")
    (hdbs : ∀ c ∈ (ov.getD o.db_name).data, urlSafeChar c = true) :
    build_url o ov = .ok ⟨"postgres", o.username.getD "", o.password,
      o.host, o.port, ⟨'/' :: (ov.getD o.db_name).data⟩, false⟩ := by
  have hhead : ¬ (ov.getD o.db_name).data.head? = some '/' := by
    cases hd : (ov.getD o.db_name).data with
    | nil => simp
    | cons c cs =>
      simp only [List.head?_cons, Option.some.injEq]
      intro hc
      subst hc
      have hmem := hdbs '/' (by rw [hd]; exact List.mem_cons_self _ _)
      revert hmem
      decide
  simp only [build_url]
  rw [if_neg hdb, parseUrl_postgres_host o.host hh]
  simp only [set_port, set_username, set_password, set_path]
  rw [if_neg hhead]
  exact rfl

/-- C9: for every valid combination of URL-safe host, optional port,
optional username, optional password and non-empty database name, the
URL produced by Options::database_url (via build_url) is idempotent
under re-parsing: parsing the produced URL string yields back exactly
the supplied host, port, username (absent meaning empty), password, and
the database name as the path behind the leading slash. -/
theorem database_url_roundtrip (hostS db : String) (p : Option Nat)
    (un pw : Option String)
    (hh : ¬ hostS = "" ∧ ∀ c ∈ hostS.data, urlSafeChar c = true)
    (hdb : ¬ db = "" ∧ ∀ c ∈ db.data, urlSafeChar c = true)
    (hu : ∀ c ∈ (un.getD "").data, urlSafeChar c = true)
    (hp : ∀ c ∈ pwData pw, urlSafeChar c = true)
    (hpt : p.getD 0 < 65536) :
    ∃ u : Url,
      database_url ⟨"", "./config.yml", none, db, hostS, p, un, pw,
        "pg_dump", false, false, []⟩ = .ok u ∧
      parseUrl (urlToString u) = some u ∧
      u.host = hostS ∧ u.port = p ∧ u.username = un.getD "" ∧
      u.password = pw ∧ u.path = "/" ++ db := by
  have hpt2 : ∀ n, p = some n → n < 65536 := by
    intro n hn
    rw [hn] at hpt
    simpa using hpt
  refine ⟨⟨"postgres", un.getD "", pw, hostS, p, ⟨'/' :: db.data⟩,
    false⟩, ?_, ?_, rfl, rfl, rfl, rfl, rfl⟩
  · exact build_url_eq
      ⟨"", "./config.yml", none, db, hostS, p, un, pw, "pg_dump",
        false, false, []⟩ none hh.2 hdb.1 hdb.2
  · exact parseUrl_roundtrip
      ⟨"postgres", un.getD "", pw, hostS, p, ⟨'/' :: db.data⟩, false⟩
      rfl rfl hh.2 hu hp rfl hpt2

/-- C9 witness: the spec scenario — host hostname, port 5433, user
test_user, password pass, database test. -/
theorem database_url_roundtrip_witness :
    ∃ u : Url,
      database_url ⟨"", "./config.yml", none, "test", "hostname",
        some 5433, some "test_user", some "pass", "pg_dump", false,
        false, []⟩ = .ok u ∧
      parseUrl (urlToString u) = some u ∧
      u.host = "hostname" ∧ u.port = some 5433 ∧
      u.username = "test_user" ∧ u.password = some "pass" ∧
      u.path = "/" ++ "test" :=
  database_url_roundtrip "hostname" "test" (some 5433)
    (some "test_user") (some "pass") ⟨by decide, by decide⟩
    ⟨by decide, by decide⟩ (by decide) (by decide) (by decide)

/-- C10: a database argument that parses as a URL is returned unchanged
when its scheme is postgres, whatever the host/port/user/password
options hold, and rejected for any other scheme; a non-parsing argument
goes through build_url, an empty argument falling back to the db_name
option, with the missing-database error exactly when that fallback is
empty (given well-formed host and db_name options). -/
theorem database_url_branching (o : Options) :
    (∀ u, parseUrl o.database = some u → u.scheme = "postgres" →
      database_url o = .ok u) ∧
    (∀ u, parseUrl o.database = some u → ¬ u.scheme = "postgres" →
      database_url o = .error "Scheme url error") ∧
    (parseUrl o.database = none → ¬ o.database = "" →
      database_url o = build_url o (some o.database)) ∧
    (o.database = "" → database_url o = build_url o none) ∧
    (o.database = "" → o.db_name = "" →
      database_url o = .error "No one database passed") ∧
    (o.database = "" → ¬ o.db_name = "" →
      (∀ c ∈ o.host.data, urlSafeChar c = true) →
      (∀ c ∈ o.db_name.data, urlSafeChar c = true) →
      ∃ u, database_url o = .ok u) := by
  have hsome : ∀ u, parseUrl o.database = some u →
      database_url o = if u.scheme = "postgres" then Except.ok u
        else Except.error "Scheme url error" := by
    intro u hpu
    unfold database_url
    rw [hpu]
  have hempty : o.database = "" → database_url o = build_url o none := by
    intro he
    unfold database_url
    rw [he]
    exact rfl
  refine ⟨?_, ?_, ?_, hempty, ?_, ?_⟩
  · intro u hpu hs
    rw [hsome u hpu, if_pos hs]
  · intro u hpu hs
    rw [hsome u hpu, if_neg hs]
  · intro hpu hne
    unfold database_url
    rw [hpu]
    simp [Option.filter, hne]
  · intro he hn
    rw [hempty he]
    simp only [build_url, Option.getD_none]
    rw [if_pos hn]
  · intro he hn hh hdbs
    refine ⟨⟨"postgres", o.username.getD "", o.password, o.host, o.port,
      ⟨'/' :: o.db_name.data⟩, false⟩, ?_⟩
    rw [hempty he]
    exact build_url_eq o none hh hn hdbs

/-- C10 witness: a postgres:// argument is returned as parsed, with the
host/user options ignored. -/
theorem database_url_branching_witness :
    database_url ⟨"postgres://user@hostname/test", "./config.yml", none,
      "test", "localhost", none, none, none, "pg_dump", false, false,
      []⟩ =
      .ok ⟨"postgres", "user", none, "hostname", none, "/test",
        false⟩ :=
  (database_url_branching _).1
    ⟨"postgres", "user", none, "hostname", none, "/test", false⟩ rfl rfl

end Datanymizer
